import Mathlib

/-!
Verification of the credential and token core of `spsyncpro-api`.

The Go sources embedded here are:
* `internal/account/service.go` — Argon2id password hashing and verification
  (`HashPassword`, `ComparePassword`), JWT issuance and validation
  (`GenerateAuthToken`, `ValidateAuthToken`, `GeneratePasswordResetToken`,
  `ValidatePasswordResetToken`);
* `pkg/utils` — the AES-GCM `Encryptor` (`Encrypt`, `Decrypt`).

Go strings are modelled as `List Char`, byte slices as `List Nat` whose
elements are below 256.  The external cryptographic primitives
(`argon2.IDKey`, HMAC-SHA-256 signing, AES-GCM seal/open) are modelled as
explicit function parameters; their correctness properties (round-trip,
collision freeness, authenticity) enter the theorems as pointwise
hypotheses, as the Go code relies on exactly those library contracts.
Everything else — splitting, parsing, base64, branch structure — is
translated directly from the source.
-/

/-- Outcome of a Go function returning `(value, error)`, extended with the
runtime-panic outcome so that an unchecked type assertion can be modelled. -/
inductive GoResult (ε α : Type) where
  | ok (val : α)
  | err (e : ε)
  | panicked (msg : List Char)
  deriving DecidableEq, Repr

/-- `strings.Split(s, sep)` for a one-character separator: the fields of `s`
between occurrences of `sep`.  Never returns the empty list. -/
def splitOnChar (sep : Char) : List Char → List (List Char)
  | [] => [[]]
  | c :: cs =>
    match splitOnChar sep cs with
    | [] => [[]]
    | h :: t => if c = sep then [] :: h :: t else (c :: h) :: t

theorem splitOnChar_ne_nil (sep : Char) (s : List Char) : splitOnChar sep s ≠ [] := by
  cases s with
  | nil => simp [splitOnChar]
  | cons c cs =>
    simp only [splitOnChar]
    rcases splitOnChar sep cs with _ | ⟨h, t⟩
    · simp
    · by_cases hc : c = sep <;> simp [hc]

theorem splitOnChar_no_sep (sep : Char) (xs : List Char) (h : sep ∉ xs) :
    splitOnChar sep xs = [xs] := by
  induction xs with
  | nil => rfl
  | cons c cs ih =>
    have hc : ¬ c = sep := fun he => h (he ▸ List.mem_cons_self c cs)
    have hcs : sep ∉ cs := fun hm => h (List.mem_cons_of_mem _ hm)
    simp only [splitOnChar, ih hcs]
    simp [hc]

theorem splitOnChar_append (sep : Char) (xs ys : List Char) (h : sep ∉ xs) :
    splitOnChar sep (xs ++ sep :: ys) = xs :: splitOnChar sep ys := by
  induction xs with
  | nil =>
    simp only [List.nil_append, splitOnChar]
    rcases hys : splitOnChar sep ys with _ | ⟨h0, t0⟩
    · exact absurd hys (splitOnChar_ne_nil sep ys)
    · simp
  | cons c cs ih =>
    have hc : ¬ c = sep := fun he => h (he ▸ List.mem_cons_self c cs)
    have hcs : sep ∉ cs := fun hm => h (List.mem_cons_of_mem _ hm)
    simp only [List.cons_append, splitOnChar, List.append_eq]
    rw [ih hcs]
    simp [hc]

/-- `strconv.ParseUint(s, 10, bits)`: decimal digits only, non-empty, and the
value must fit in `bits` bits (otherwise Go reports a range error). -/
def goParseUint (s : List Char) (bits : Nat) : Option Nat :=
  if s = [] then none
  else if s.all (fun c => 48 ≤ c.toNat && c.toNat ≤ 57) then
    let v := s.foldl (fun acc c => acc * 10 + (c.toNat - 48)) 0
    if v < 2 ^ bits then some v else none
  else none

/-- `strings.TrimPrefix(s, pre)`: drop `pre` when it is a leading segment of
`s`, otherwise return `s` unchanged. -/
def goTrim (pre s : List Char) : List Char :=
  if pre.isPrefixOf s then s.drop pre.length else s

/-- Fuel-based core of decimal formatting, mirroring `Nat.toDigitsCore`
(and thereby Go's `strconv` decimal formatting): emit the digits of `n`
most-significant first, in front of `acc`. -/
def natDecimalAux : Nat → Nat → List Char → List Char
  | 0, _, acc => acc
  | fuel + 1, n, acc =>
    let d := Char.ofNat (48 + n % 10)
    if n < 10 then d :: acc
    else natDecimalAux fuel (n / 10) (d :: acc)

/-- Decimal representation of a natural number, as produced by `fmt.Sprintf`
with verb `%d` or by `strconv.FormatUint`. -/
def natDecimal (n : Nat) : List Char := natDecimalAux (n + 1) n []

theorem natDecimalAux_acc (fuel : Nat) :
    ∀ (n : Nat) (acc : List Char),
      natDecimalAux fuel n acc = natDecimalAux fuel n [] ++ acc := by
  induction fuel with
  | zero => intro n acc; simp [natDecimalAux]
  | succ fuel ih =>
    intro n acc
    simp only [natDecimalAux]
    by_cases h : n < 10
    · simp [h]
    · simp only [h, if_false]
      rw [ih (n / 10) (Char.ofNat (48 + n % 10) :: acc),
          ih (n / 10) [Char.ofNat (48 + n % 10)]]
      simp

theorem natDecimalAux_fuel (fuel₁ fuel₂ n : Nat) (h₁ : n < fuel₁) (h₂ : n < fuel₂) :
    natDecimalAux fuel₁ n [] = natDecimalAux fuel₂ n [] := by
  induction n using Nat.strongRecOn generalizing fuel₁ fuel₂ with
  | _ n ih =>
    cases fuel₁ with
    | zero => omega
    | succ f₁ =>
      cases fuel₂ with
      | zero => omega
      | succ f₂ =>
        simp only [natDecimalAux]
        by_cases h : n < 10
        · simp [h]
        · simp only [h, if_false]
          rw [natDecimalAux_acc f₁, natDecimalAux_acc f₂,
              ih (n / 10) (Nat.div_lt_self (by omega) (by omega)) f₁ f₂
                (by omega) (by omega)]

theorem digitChar_toNat {d : Nat} (h : d < 10) :
    (Char.ofNat (48 + d)).toNat = 48 + d := by
  interval_cases d <;> decide

theorem natDecimal_readback (n : Nat) :
    (natDecimal n).foldl (fun acc c => acc * 10 + (c.toNat - 48)) 0 = n := by
  induction n using Nat.strongRecOn with
  | _ n ih =>
    simp only [natDecimal, natDecimalAux]
    by_cases h : n < 10
    · simp only [h, if_true, List.foldl]
      rw [digitChar_toNat (Nat.mod_lt n (by omega))]
      omega
    · simp only [h, if_false]
      rw [natDecimalAux_acc, List.foldl_append]
      rw [natDecimalAux_fuel n (n / 10 + 1) (n / 10) (by omega) (by omega)]
      have hlt : n / 10 < n := Nat.div_lt_self (by omega) (by omega)
      have := ih (n / 10) hlt
      simp only [natDecimal] at this
      rw [this]
      simp only [List.foldl]
      rw [digitChar_toNat (Nat.mod_lt n (by omega))]
      omega

theorem natDecimal_chars (n : Nat) :
    ∀ c ∈ natDecimal n, ∃ d, d < 10 ∧ c = Char.ofNat (48 + d) := by
  have key : ∀ (fuel m : Nat) (acc : List Char),
      (∀ c ∈ acc, ∃ d, d < 10 ∧ c = Char.ofNat (48 + d)) →
      ∀ c ∈ natDecimalAux fuel m acc, ∃ d, d < 10 ∧ c = Char.ofNat (48 + d) := by
    intro fuel
    induction fuel with
    | zero => intro m acc hacc c hc; exact hacc c hc
    | succ fuel ih =>
      intro m acc hacc c hc
      simp only [natDecimalAux] at hc
      by_cases h : m < 10
      · simp only [h, if_true] at hc
        rcases List.mem_cons.mp hc with rfl | hmem
        · exact ⟨m % 10, Nat.mod_lt m (by omega), rfl⟩
        · exact hacc c hmem
      · simp only [h, if_false] at hc
        refine ih (m / 10) _ ?_ c hc
        intro c' hc'
        rcases List.mem_cons.mp hc' with rfl | hmem
        · exact ⟨m % 10, Nat.mod_lt m (by omega), rfl⟩
        · exact hacc c' hmem
  exact key (n + 1) n [] (by simp)

theorem natDecimal_ne_nil (n : Nat) : natDecimal n ≠ [] := by
  simp only [natDecimal, natDecimalAux]
  by_cases h : n < 10
  · simp [h]
  · simp only [h, if_false]
    rw [natDecimalAux_acc]
    simp

/-- Parsing the decimal rendering of `n` recovers `n` (for `n` within the
requested bit width). -/
theorem goParseUint_natDecimal (n bits : Nat) (h : n < 2 ^ bits) :
    goParseUint (natDecimal n) bits = some n := by
  have hd := natDecimal_chars n
  have hall : (natDecimal n).all (fun c => 48 ≤ c.toNat && c.toNat ≤ 57) = true := by
    rw [List.all_eq_true]
    intro c hc
    obtain ⟨d, hd10, rfl⟩ := hd c hc
    rw [Bool.and_eq_true, decide_eq_true_eq, decide_eq_true_eq,
        digitChar_toNat hd10]
    omega
  simp only [goParseUint, natDecimal_ne_nil n, if_false, hall, if_true,
    natDecimal_readback n, h, reduceIte]

/-- The standard base64 alphabet as a function on 6-bit indices
(`encoding/base64.StdEncoding`'s encode table). -/
def b64Char (n : Nat) : Char :=
  if n < 26 then Char.ofNat (65 + n)
  else if n < 52 then Char.ofNat (97 + (n - 26))
  else if n < 62 then Char.ofNat (48 + (n - 52))
  else if n = 62 then '+' else '/'

/-- Inverse of the standard base64 alphabet (`encoding/base64`'s decode
map); `none` for characters outside the alphabet. -/
def b64Index (c : Char) : Option Nat :=
  let n := c.toNat
  if 65 ≤ n && n ≤ 90 then some (n - 65)
  else if 97 ≤ n && n ≤ 122 then some (n - 97 + 26)
  else if 48 ≤ n && n ≤ 57 then some (n - 48 + 52)
  else if n = 43 then some 62
  else if n = 47 then some 63
  else none

theorem b64Index_b64Char : ∀ k, k < 64 → b64Index (b64Char k) = some k := by decide

theorem b64Char_not_special : ∀ k, k < 64 →
    b64Char k ≠ '$' ∧ b64Char k ≠ ',' ∧ b64Char k ≠ '=' := by decide

/-- `base64.RawStdEncoding.EncodeToString`: standard alphabet, no padding.
Three input bytes become four characters; a two-byte tail becomes three
characters and a one-byte tail two. -/
def b64EncodeRaw : List Nat → List Char
  | b0 :: b1 :: b2 :: rest =>
      b64Char (b0 / 4) :: b64Char (b0 % 4 * 16 + b1 / 16) ::
      b64Char (b1 % 16 * 4 + b2 / 64) :: b64Char (b2 % 64) :: b64EncodeRaw rest
  | [b0, b1] =>
      [b64Char (b0 / 4), b64Char (b0 % 4 * 16 + b1 / 16), b64Char (b1 % 16 * 4)]
  | [b0] => [b64Char (b0 / 4), b64Char (b0 % 4 * 16)]
  | [] => []

/-- Go's base64 decoders skip `\r` and `\n` wherever they occur
(`decodeQuantum` ignores them, also around padding), so decoding is
equivalent to filtering them out first. -/
def stripNewlines (s : List Char) : List Char :=
  s.filter (fun c => !(c == '\n' || c == '\r'))

/-- The quantum phase of `base64.RawStdEncoding.DecodeString`, after
newline stripping: quanta of four characters from the front, with a final
quantum of two or three characters; any character outside the alphabet
(including `=`) is rejected.  Go's non-strict decoder ignores the unused
trailing bits of the final quantum. -/
def b64DecodeRawQuanta : List Char → Option (List Nat)
  | [] => some []
  | [_] => none
  | [c0, c1] =>
      match b64Index c0, b64Index c1 with
      | some n0, some n1 => some [n0 * 4 + n1 / 16]
      | _, _ => none
  | [c0, c1, c2] =>
      match b64Index c0, b64Index c1, b64Index c2 with
      | some n0, some n1, some n2 => some [n0 * 4 + n1 / 16, n1 % 16 * 16 + n2 / 4]
      | _, _, _ => none
  | c0 :: c1 :: c2 :: c3 :: rest =>
      match b64Index c0, b64Index c1, b64Index c2, b64Index c3 with
      | some n0, some n1, some n2, some n3 =>
          (b64DecodeRawQuanta rest).map
            (fun r => (n0 * 4 + n1 / 16) :: (n1 % 16 * 16 + n2 / 4) :: (n2 % 4 * 64 + n3) :: r)
      | _, _, _, _ => none

/-- `base64.RawStdEncoding.DecodeString`: ignore `\r`/`\n`, then decode
the quanta. -/
def b64DecodeRaw (s : List Char) : Option (List Nat) :=
  b64DecodeRawQuanta (stripNewlines s)

theorem b64DecodeRawQuanta_b64EncodeRaw :
    ∀ bs : List Nat, (∀ b ∈ bs, b < 256) →
      b64DecodeRawQuanta (b64EncodeRaw bs) = some bs := by
  intro bs
  induction bs using b64EncodeRaw.induct with
  | case1 b0 b1 b2 rest ih =>
    intro h
    have h0 : b0 < 256 := h b0 (by simp)
    have h1 : b1 < 256 := h b1 (by simp)
    have h2 : b2 < 256 := h b2 (by simp)
    have hrest := ih (fun b hb => h b (by simp [hb]))
    simp only [b64EncodeRaw, b64DecodeRawQuanta,
      b64Index_b64Char _ (by omega : b0 / 4 < 64),
      b64Index_b64Char _ (by omega : b0 % 4 * 16 + b1 / 16 < 64),
      b64Index_b64Char _ (by omega : b1 % 16 * 4 + b2 / 64 < 64),
      b64Index_b64Char _ (by omega : b2 % 64 < 64), hrest, Option.map_some]
    refine congrArg some ?_
    have e0 : b0 / 4 * 4 + (b0 % 4 * 16 + b1 / 16) / 16 = b0 := by omega
    have e1 : (b0 % 4 * 16 + b1 / 16) % 16 * 16 + (b1 % 16 * 4 + b2 / 64) / 4 = b1 := by omega
    have e2 : (b1 % 16 * 4 + b2 / 64) % 4 * 64 + b2 % 64 = b2 := by omega
    rw [e0, e1, e2]
  | case2 b0 b1 =>
    intro h
    have h0 : b0 < 256 := h b0 (by simp)
    have h1 : b1 < 256 := h b1 (by simp)
    simp only [b64EncodeRaw, b64DecodeRawQuanta,
      b64Index_b64Char _ (by omega : b0 / 4 < 64),
      b64Index_b64Char _ (by omega : b0 % 4 * 16 + b1 / 16 < 64),
      b64Index_b64Char _ (by omega : b1 % 16 * 4 < 64)]
    refine congrArg some ?_
    have e0 : b0 / 4 * 4 + (b0 % 4 * 16 + b1 / 16) / 16 = b0 := by omega
    have e1 : (b0 % 4 * 16 + b1 / 16) % 16 * 16 + b1 % 16 * 4 / 4 = b1 := by omega
    rw [e0, e1]
  | case3 b0 =>
    intro h
    have h0 : b0 < 256 := h b0 (by simp)
    simp only [b64EncodeRaw, b64DecodeRawQuanta,
      b64Index_b64Char _ (by omega : b0 / 4 < 64),
      b64Index_b64Char _ (by omega : b0 % 4 * 16 < 64)]
    refine congrArg some ?_
    have e0 : b0 / 4 * 4 + b0 % 4 * 16 / 16 = b0 := by omega
    rw [e0]
  | case4 => intro _; simp [b64EncodeRaw, b64DecodeRawQuanta]

theorem b64EncodeRaw_chars :
    ∀ bs : List Nat, (∀ b ∈ bs, b < 256) →
      ∀ c ∈ b64EncodeRaw bs, ∃ k, k < 64 ∧ c = b64Char k := by
  intro bs
  induction bs using b64EncodeRaw.induct with
  | case1 b0 b1 b2 rest ih =>
    intro h c hc
    have h0 : b0 < 256 := h b0 (by simp)
    have h1 : b1 < 256 := h b1 (by simp)
    have h2 : b2 < 256 := h b2 (by simp)
    simp only [b64EncodeRaw, List.mem_cons] at hc
    rcases hc with rfl | rfl | rfl | rfl | hmem
    · exact ⟨_, by omega, rfl⟩
    · exact ⟨_, by omega, rfl⟩
    · exact ⟨_, by omega, rfl⟩
    · exact ⟨_, by omega, rfl⟩
    · exact ih (fun b hb => h b (by simp [hb])) c hmem
  | case2 b0 b1 =>
    intro h c hc
    have h0 : b0 < 256 := h b0 (by simp)
    have h1 : b1 < 256 := h b1 (by simp)
    simp only [b64EncodeRaw, List.mem_cons, List.not_mem_nil, or_false] at hc
    rcases hc with rfl | rfl | rfl
    · exact ⟨_, by omega, rfl⟩
    · exact ⟨_, by omega, rfl⟩
    · exact ⟨_, by omega, rfl⟩
  | case3 b0 =>
    intro h c hc
    have h0 : b0 < 256 := h b0 (by simp)
    simp only [b64EncodeRaw, List.mem_cons, List.not_mem_nil, or_false] at hc
    rcases hc with rfl | rfl
    · exact ⟨_, by omega, rfl⟩
    · exact ⟨_, by omega, rfl⟩
  | case4 => intro _ c hc; simp [b64EncodeRaw] at hc

theorem b64Char_not_newline : ∀ k, k < 64 →
    (!(b64Char k == '\n' || b64Char k == '\r')) = true := by decide

theorem stripNewlines_b64EncodeRaw (bs : List Nat) (h : ∀ b ∈ bs, b < 256) :
    stripNewlines (b64EncodeRaw bs) = b64EncodeRaw bs := by
  refine List.filter_eq_self.mpr ?_
  intro c hc
  obtain ⟨k, hk, rfl⟩ := b64EncodeRaw_chars bs h c hc
  exact b64Char_not_newline k hk

/-- Decoding an unpadded encoding recovers the bytes. -/
theorem b64DecodeRaw_b64EncodeRaw (bs : List Nat) (h : ∀ b ∈ bs, b < 256) :
    b64DecodeRaw (b64EncodeRaw bs) = some bs := by
  rw [b64DecodeRaw, stripNewlines_b64EncodeRaw bs h,
    b64DecodeRawQuanta_b64EncodeRaw bs h]

theorem b64EncodeRaw_injOn {bs₁ bs₂ : List Nat}
    (h₁ : ∀ b ∈ bs₁, b < 256) (h₂ : ∀ b ∈ bs₂, b < 256)
    (he : b64EncodeRaw bs₁ = b64EncodeRaw bs₂) : bs₁ = bs₂ := by
  have := b64DecodeRaw_b64EncodeRaw bs₁ h₁
  rw [he, b64DecodeRaw_b64EncodeRaw bs₂ h₂] at this
  exact (Option.some_injective _ this).symm

theorem b64EncodeRaw_not_special :
    ∀ (bs : List Nat), (∀ b ∈ bs, b < 256) →
      ∀ c ∈ b64EncodeRaw bs, c ≠ '$' ∧ c ≠ ',' := by
  intro bs
  induction bs using b64EncodeRaw.induct with
  | case1 b0 b1 b2 rest ih =>
    intro h c hc
    have h0 : b0 < 256 := h b0 (by simp)
    have h1 : b1 < 256 := h b1 (by simp)
    have h2 : b2 < 256 := h b2 (by simp)
    simp only [b64EncodeRaw, List.mem_cons] at hc
    rcases hc with rfl | rfl | rfl | rfl | hmem
    · exact ⟨(b64Char_not_special _ (by omega)).1, (b64Char_not_special _ (by omega)).2.1⟩
    · exact ⟨(b64Char_not_special _ (by omega)).1, (b64Char_not_special _ (by omega)).2.1⟩
    · exact ⟨(b64Char_not_special _ (by omega)).1, (b64Char_not_special _ (by omega)).2.1⟩
    · exact ⟨(b64Char_not_special _ (by omega)).1, (b64Char_not_special _ (by omega)).2.1⟩
    · exact ih (fun b hb => h b (by simp [hb])) c hmem
  | case2 b0 b1 =>
    intro h c hc
    have h0 : b0 < 256 := h b0 (by simp)
    have h1 : b1 < 256 := h b1 (by simp)
    simp only [b64EncodeRaw, List.mem_cons, List.not_mem_nil, or_false] at hc
    rcases hc with rfl | rfl | rfl
    · exact ⟨(b64Char_not_special _ (by omega)).1, (b64Char_not_special _ (by omega)).2.1⟩
    · exact ⟨(b64Char_not_special _ (by omega)).1, (b64Char_not_special _ (by omega)).2.1⟩
    · exact ⟨(b64Char_not_special _ (by omega)).1, (b64Char_not_special _ (by omega)).2.1⟩
  | case3 b0 =>
    intro h c hc
    have h0 : b0 < 256 := h b0 (by simp)
    simp only [b64EncodeRaw, List.mem_cons, List.not_mem_nil, or_false] at hc
    rcases hc with rfl | rfl
    · exact ⟨(b64Char_not_special _ (by omega)).1, (b64Char_not_special _ (by omega)).2.1⟩
    · exact ⟨(b64Char_not_special _ (by omega)).1, (b64Char_not_special _ (by omega)).2.1⟩
  | case4 => intro _ c hc; simp [b64EncodeRaw] at hc

/-- `base64.StdEncoding.EncodeToString`: like the raw variant but the final
quantum is padded with `=` characters to a multiple of four. -/
def b64EncodeStd : List Nat → List Char
  | b0 :: b1 :: b2 :: rest =>
      b64Char (b0 / 4) :: b64Char (b0 % 4 * 16 + b1 / 16) ::
      b64Char (b1 % 16 * 4 + b2 / 64) :: b64Char (b2 % 64) :: b64EncodeStd rest
  | [b0, b1] =>
      [b64Char (b0 / 4), b64Char (b0 % 4 * 16 + b1 / 16), b64Char (b1 % 16 * 4), '=']
  | [b0] => [b64Char (b0 / 4), b64Char (b0 % 4 * 16), '=', '=']
  | [] => []

/-- The quantum phase of `base64.StdEncoding.DecodeString`, after newline
stripping: the input must consist of four-character quanta; `=` padding is
accepted only at the very end, closing a one- or two-byte final quantum. -/
def b64DecodeStdQuanta : List Char → Option (List Nat)
  | [] => some []
  | c0 :: c1 :: c2 :: c3 :: rest =>
      match b64Index c0, b64Index c1 with
      | some n0, some n1 =>
        if c2 = '=' then
          if c3 = '=' && rest.isEmpty then some [n0 * 4 + n1 / 16] else none
        else
          match b64Index c2 with
          | some n2 =>
            if c3 = '=' then
              if rest.isEmpty then some [n0 * 4 + n1 / 16, n1 % 16 * 16 + n2 / 4]
              else none
            else
              match b64Index c3 with
              | some n3 =>
                  (b64DecodeStdQuanta rest).map
                    (fun r => (n0 * 4 + n1 / 16) :: (n1 % 16 * 16 + n2 / 4) ::
                      (n2 % 4 * 64 + n3) :: r)
              | none => none
          | none => none
      | _, _ => none
  | _ => none

/-- `base64.StdEncoding.DecodeString`: ignore `\r`/`\n`, then decode the
quanta. -/
def b64DecodeStd (s : List Char) : Option (List Nat) :=
  b64DecodeStdQuanta (stripNewlines s)

theorem b64DecodeStdQuanta_b64EncodeStd :
    ∀ bs : List Nat, (∀ b ∈ bs, b < 256) →
      b64DecodeStdQuanta (b64EncodeStd bs) = some bs := by
  intro bs
  induction bs using b64EncodeStd.induct with
  | case1 b0 b1 b2 rest ih =>
    intro h
    have h0 : b0 < 256 := h b0 (by simp)
    have h1 : b1 < 256 := h b1 (by simp)
    have h2 : b2 < 256 := h b2 (by simp)
    have hrest := ih (fun b hb => h b (by simp [hb]))
    have hne2 : ¬ (b64Char (b1 % 16 * 4 + b2 / 64) = '=') :=
      (b64Char_not_special _ (by omega)).2.2
    have hne3 : ¬ (b64Char (b2 % 64) = '=') :=
      (b64Char_not_special _ (by omega)).2.2
    simp only [b64EncodeStd, b64DecodeStdQuanta,
      b64Index_b64Char _ (by omega : b0 / 4 < 64),
      b64Index_b64Char _ (by omega : b0 % 4 * 16 + b1 / 16 < 64),
      b64Index_b64Char _ (by omega : b1 % 16 * 4 + b2 / 64 < 64),
      b64Index_b64Char _ (by omega : b2 % 64 < 64),
      hne2, hne3, if_false, hrest, Option.map_some]
    refine congrArg some ?_
    have e0 : b0 / 4 * 4 + (b0 % 4 * 16 + b1 / 16) / 16 = b0 := by omega
    have e1 : (b0 % 4 * 16 + b1 / 16) % 16 * 16 + (b1 % 16 * 4 + b2 / 64) / 4 = b1 := by omega
    have e2 : (b1 % 16 * 4 + b2 / 64) % 4 * 64 + b2 % 64 = b2 := by omega
    rw [e0, e1, e2]
  | case2 b0 b1 =>
    intro h
    have h0 : b0 < 256 := h b0 (by simp)
    have h1 : b1 < 256 := h b1 (by simp)
    have hne2 : ¬ (b64Char (b1 % 16 * 4) = '=') :=
      (b64Char_not_special _ (by omega)).2.2
    simp only [b64EncodeStd, b64DecodeStdQuanta,
      b64Index_b64Char _ (by omega : b0 / 4 < 64),
      b64Index_b64Char _ (by omega : b0 % 4 * 16 + b1 / 16 < 64),
      b64Index_b64Char _ (by omega : b1 % 16 * 4 < 64),
      hne2, if_false, if_true, List.isEmpty_nil]
    refine congrArg some ?_
    have e0 : b0 / 4 * 4 + (b0 % 4 * 16 + b1 / 16) / 16 = b0 := by omega
    have e1 : (b0 % 4 * 16 + b1 / 16) % 16 * 16 + b1 % 16 * 4 / 4 = b1 := by omega
    rw [e0, e1]
  | case3 b0 =>
    intro h
    have h0 : b0 < 256 := h b0 (by simp)
    simp only [b64EncodeStd, b64DecodeStdQuanta,
      b64Index_b64Char _ (by omega : b0 / 4 < 64),
      b64Index_b64Char _ (by omega : b0 % 4 * 16 < 64),
      if_true, List.isEmpty_nil]
    refine congrArg some ?_
    have e0 : b0 / 4 * 4 + b0 % 4 * 16 / 16 = b0 := by omega
    simp only [List.cons.injEq, and_true]
    omega
  | case4 => intro _; simp [b64EncodeStd, b64DecodeStdQuanta]

theorem b64EncodeStd_chars :
    ∀ bs : List Nat, (∀ b ∈ bs, b < 256) →
      ∀ c ∈ b64EncodeStd bs, (∃ k, k < 64 ∧ c = b64Char k) ∨ c = '=' := by
  intro bs
  induction bs using b64EncodeStd.induct with
  | case1 b0 b1 b2 rest ih =>
    intro h c hc
    have h0 : b0 < 256 := h b0 (by simp)
    have h1 : b1 < 256 := h b1 (by simp)
    have h2 : b2 < 256 := h b2 (by simp)
    simp only [b64EncodeStd, List.mem_cons] at hc
    rcases hc with rfl | rfl | rfl | rfl | hmem
    · exact .inl ⟨_, by omega, rfl⟩
    · exact .inl ⟨_, by omega, rfl⟩
    · exact .inl ⟨_, by omega, rfl⟩
    · exact .inl ⟨_, by omega, rfl⟩
    · exact ih (fun b hb => h b (by simp [hb])) c hmem
  | case2 b0 b1 =>
    intro h c hc
    have h0 : b0 < 256 := h b0 (by simp)
    have h1 : b1 < 256 := h b1 (by simp)
    simp only [b64EncodeStd, List.mem_cons, List.not_mem_nil, or_false] at hc
    rcases hc with rfl | rfl | rfl | rfl
    · exact .inl ⟨_, by omega, rfl⟩
    · exact .inl ⟨_, by omega, rfl⟩
    · exact .inl ⟨_, by omega, rfl⟩
    · exact .inr rfl
  | case3 b0 =>
    intro h c hc
    have h0 : b0 < 256 := h b0 (by simp)
    simp only [b64EncodeStd, List.mem_cons, List.not_mem_nil, or_false] at hc
    rcases hc with rfl | rfl | rfl | rfl
    · exact .inl ⟨_, by omega, rfl⟩
    · exact .inl ⟨_, by omega, rfl⟩
    · exact .inr rfl
    · exact .inr rfl
  | case4 => intro _ c hc; simp [b64EncodeStd] at hc

theorem stripNewlines_b64EncodeStd (bs : List Nat) (h : ∀ b ∈ bs, b < 256) :
    stripNewlines (b64EncodeStd bs) = b64EncodeStd bs := by
  refine List.filter_eq_self.mpr ?_
  intro c hc
  rcases b64EncodeStd_chars bs h c hc with ⟨k, hk, rfl⟩ | rfl
  · exact b64Char_not_newline k hk
  · decide

/-- Decoding a padded encoding recovers the bytes. -/
theorem b64DecodeStd_b64EncodeStd (bs : List Nat) (h : ∀ b ∈ bs, b < 256) :
    b64DecodeStd (b64EncodeStd bs) = some bs := by
  rw [b64DecodeStd, stripNewlines_b64EncodeStd bs h,
    b64DecodeStdQuanta_b64EncodeStd bs h]

theorem b64EncodeStd_injOn {bs₁ bs₂ : List Nat}
    (h₁ : ∀ b ∈ bs₁, b < 256) (h₂ : ∀ b ∈ bs₂, b < 256)
    (he : b64EncodeStd bs₁ = b64EncodeStd bs₂) : bs₁ = bs₂ := by
  have := b64DecodeStd_b64EncodeStd bs₁ h₁
  rw [he, b64DecodeStd_b64EncodeStd bs₂ h₂] at this
  exact (Option.some_injective _ this).symm

/-- Signature of `argon2.IDKey`: password, salt, time, memory, threads,
keyLen — returning the derived key.  The Go code treats this as an opaque
library primitive, so it is a parameter of the embedding. -/
abbrev Kdf := List Char → List Nat → Nat → Nat → Nat → Nat → List Nat

inductive HashError where
  | passwordEmpty
  | invalidHashFormat
  deriving DecidableEq, Repr

/-- The fixed Argon2id parameters of `HashPassword`. -/
def argonMemory : Nat := 64 * 1024

def argonTime : Nat := 1

def argonThreads : Nat := 4

def argonKeyLen : Nat := 32

def argonSaltLen : Nat := 16

/-- The layout produced by
`fmt.Sprintf("$argon2id$v=19$m=%d,t=%d,p=%d$%s$%s", memory, time, threads,
b64Salt, b64Hash)`: decimal parameter values and two base64 fields, all
`$`-delimited. -/
def hashFormat (m t p : Nat) (s64 h64 : List Char) : List Char :=
  '$' :: "argon2id".toList ++ '$' :: "v=19".toList ++
  '$' :: ("m=".toList ++ natDecimal m ++ ",t=".toList ++ natDecimal t ++
          ",p=".toList ++ natDecimal p) ++
  '$' :: s64 ++ '$' :: h64

/-- `HashPassword` from `internal/account/service.go`: reject the empty
password, derive a 32-byte key from the fresh 16-byte salt with Argon2id
(m=65536, t=1, p=4), and render the `Sprintf` layout with unpadded base64
salt and key.  The randomly drawn salt is passed explicitly. -/
def hashPassword (kdf : Kdf) (password : List Char) (salt : List Nat) :
    Except HashError (List Char) :=
  if password = [] then .error .passwordEmpty
  else
    let hash := kdf password salt argonTime argonMemory argonThreads argonKeyLen
    .ok (hashFormat argonMemory argonTime argonThreads
          (b64EncodeRaw salt) (b64EncodeRaw hash))

/-- The body of `ComparePassword` after `strings.Split(hash, "$")`:
exactly six fields, algorithm tag `argon2id`, three comma-separated
parameters parsed as 32-bit unsigned integers after trimming their
prefixes, base64 salt and stored key, then a constant-time comparison of
the stored key against the recomputed one.  `uint8(threads)` is the Go
narrowing conversion, i.e. reduction mod 256. -/
def comparePasswordParts (kdf : Kdf) (password : List Char)
    (parts : List (List Char)) : Bool × Option HashError :=
  match parts with
  | [_, alg, _ver, params, saltB64, hashB64] =>
    if alg ≠ "argon2id".toList then (false, some .invalidHashFormat)
    else
      match splitOnChar ',' params with
      | [mPart, tPart, pPart] =>
        match goParseUint (goTrim "m=".toList mPart) 32 with
        | none => (false, some .invalidHashFormat)
        | some memory =>
          match goParseUint (goTrim "t=".toList tPart) 32 with
          | none => (false, some .invalidHashFormat)
          | some time =>
            match goParseUint (goTrim "p=".toList pPart) 32 with
            | none => (false, some .invalidHashFormat)
            | some threads =>
              match b64DecodeRaw saltB64 with
              | none => (false, some .invalidHashFormat)
              | some salt =>
                match b64DecodeRaw hashB64 with
                | none => (false, some .invalidHashFormat)
                | some hashBytes =>
                  let computed :=
                    kdf password salt time memory (threads % 256) argonKeyLen
                  (decide (hashBytes = computed), none)
      | _ => (false, some .invalidHashFormat)
  | _ => (false, some .invalidHashFormat)

/-- `ComparePassword` from `internal/account/service.go`. -/
def comparePassword (kdf : Kdf) (password hash : List Char) :
    Bool × Option HashError :=
  comparePasswordParts kdf password (splitOnChar '$' hash)

/-- Stated from the claim wording, for comparison against the source
function: the `$`-split fields are malformed when there are not exactly
six of them, the algorithm field is not the literal `argon2id`, the
parameter field does not split on `,` into exactly three entries, any of
the `m`/`t`/`p` values fails to parse as an unsigned integer after
stripping its prefix, or the salt or hash field is not valid unpadded
standard base64. -/
def specMalformedParts (parts : List (List Char)) : Bool :=
  match parts with
  | [_, alg, _ver, params, saltB64, hashB64] =>
      decide (alg ≠ "argon2id".toList) ||
      (match splitOnChar ',' params with
       | [mPart, tPart, pPart] =>
           (goParseUint (goTrim "m=".toList mPart) 32).isNone ||
           (goParseUint (goTrim "t=".toList tPart) 32).isNone ||
           (goParseUint (goTrim "p=".toList pPart) 32).isNone ||
           (b64DecodeRaw saltB64).isNone || (b64DecodeRaw hashB64).isNone
       | _ => true)
  | _ => true

/-- Stated from the claim wording: a hash string is malformed as a whole
when its `$`-split fields are. -/
def specHashMalformed (hash : List Char) : Bool :=
  specMalformedParts (splitOnChar '$' hash)

theorem comparePasswordParts_invalid_iff (kdf : Kdf) (password : List Char)
    (parts : List (List Char)) :
    comparePasswordParts kdf password parts =
        (false, some HashError.invalidHashFormat) ↔
      specMalformedParts parts = true := by
  rcases parts with _ | ⟨p0, _ | ⟨p1, _ | ⟨p2, _ | ⟨p3, _ | ⟨p4, _ | ⟨p5, _ | ⟨p6, rest⟩⟩⟩⟩⟩⟩⟩
  · simp [comparePasswordParts, specMalformedParts]
  · simp [comparePasswordParts, specMalformedParts]
  · simp [comparePasswordParts, specMalformedParts]
  · simp [comparePasswordParts, specMalformedParts]
  · simp [comparePasswordParts, specMalformedParts]
  · simp [comparePasswordParts, specMalformedParts]
  · by_cases halg : p1 = ['a', 'r', 'g', 'o', 'n', '2', 'i', 'd']
    · rcases hsp : splitOnChar ',' p3 with _ | ⟨q0, _ | ⟨q1, _ | ⟨q2, _ | ⟨q3, qrest⟩⟩⟩⟩
      · simp [comparePasswordParts, specMalformedParts, halg, hsp]
      · simp [comparePasswordParts, specMalformedParts, halg, hsp]
      · simp [comparePasswordParts, specMalformedParts, halg, hsp]
      · cases hm : goParseUint (goTrim ['m', '='] q0) 32 with
        | none => simp [comparePasswordParts, specMalformedParts, halg, hsp, hm]
        | some mv =>
          cases ht : goParseUint (goTrim ['t', '='] q1) 32 with
          | none => simp [comparePasswordParts, specMalformedParts, halg, hsp, hm, ht]
          | some tv =>
            cases hp : goParseUint (goTrim ['p', '='] q2) 32 with
            | none =>
              simp [comparePasswordParts, specMalformedParts, halg, hsp, hm, ht, hp]
            | some pv =>
              cases hs : b64DecodeRaw p4 with
              | none =>
                simp [comparePasswordParts, specMalformedParts, halg, hsp, hm, ht, hp, hs]
              | some salt =>
                cases hh : b64DecodeRaw p5 with
                | none =>
                  simp [comparePasswordParts, specMalformedParts, halg, hsp,
                    hm, ht, hp, hs, hh]
                | some hb =>
                  simp [comparePasswordParts, specMalformedParts, halg, hsp,
                    hm, ht, hp, hs, hh]
      · simp [comparePasswordParts, specMalformedParts, halg, hsp]
    · simp [comparePasswordParts, specMalformedParts, halg]
  · simp [comparePasswordParts, specMalformedParts]

theorem comparePasswordParts_ver_irrelevant (kdf : Kdf) (password : List Char)
    (p0 p1 v₁ v₂ : List Char) (t : List (List Char)) :
    comparePasswordParts kdf password (p0 :: p1 :: v₁ :: t) =
      comparePasswordParts kdf password (p0 :: p1 :: v₂ :: t) := by
  rcases t with _ | ⟨a, _ | ⟨b, _ | ⟨c, _ | ⟨d, r⟩⟩⟩⟩ <;>
    simp [comparePasswordParts]

theorem natDecimal_not_special (n : Nat) :
    ∀ c ∈ natDecimal n, c ≠ '$' ∧ c ≠ ',' := by
  intro c hc
  obtain ⟨d, hd, rfl⟩ := natDecimal_chars n c hc
  have key : ∀ d, d < 10 → Char.ofNat (48 + d) ≠ '$' ∧ Char.ofNat (48 + d) ≠ ',' := by
    decide
  exact key d hd

/-- The `$`-split of the `Sprintf` layout: exactly six fields. -/
theorem hashFormat_split (m t p : Nat) (s64 h64 : List Char)
    (hs : ('$' : Char) ∉ s64) (hh : ('$' : Char) ∉ h64) :
    splitOnChar '$' (hashFormat m t p s64 h64) =
      [[], "argon2id".toList, "v=19".toList,
        "m=".toList ++ natDecimal m ++ ",t=".toList ++ natDecimal t ++
          ",p=".toList ++ natDecimal p, s64, h64] := by
  have hP : ('$' : Char) ∉ "m=".toList ++ natDecimal m ++ ",t=".toList ++
      natDecimal t ++ ",p=".toList ++ natDecimal p := by
    intro hc
    simp only [List.mem_append] at hc
    rcases hc with ((((hc | hc) | hc) | hc) | hc) | hc
    · revert hc; decide
    · exact (natDecimal_not_special m '$' hc).1 rfl
    · revert hc; decide
    · exact (natDecimal_not_special t '$' hc).1 rfl
    · revert hc; decide
    · exact (natDecimal_not_special p '$' hc).1 rfl
  have restruct : hashFormat m t p s64 h64 =
      [] ++ '$' :: ("argon2id".toList ++ '$' :: ("v=19".toList ++
        '$' :: (("m=".toList ++ natDecimal m ++ ",t=".toList ++ natDecimal t ++
          ",p=".toList ++ natDecimal p) ++ '$' :: (s64 ++ '$' :: h64)))) := by
    simp [hashFormat]
  rw [restruct,
    splitOnChar_append '$' [] _ (by simp),
    splitOnChar_append '$' "argon2id".toList _ (by decide),
    splitOnChar_append '$' "v=19".toList _ (by decide),
    splitOnChar_append '$' _ _ hP,
    splitOnChar_append '$' s64 _ hs,
    splitOnChar_no_sep '$' _ hh]

/-- The `$`-split of the string produced by `HashPassword`. -/
theorem hashPassword_split (kdf : Kdf) (password : List Char) (salt : List Nat)
    (hsalt : ∀ b ∈ salt, b < 256)
    (hkb : ∀ b ∈ kdf password salt argonTime argonMemory argonThreads argonKeyLen,
      b < 256) :
    splitOnChar '$'
        (hashFormat argonMemory argonTime argonThreads (b64EncodeRaw salt)
          (b64EncodeRaw (kdf password salt argonTime argonMemory argonThreads argonKeyLen))) =
      [[], "argon2id".toList, "v=19".toList, "m=65536,t=1,p=4".toList,
        b64EncodeRaw salt,
        b64EncodeRaw (kdf password salt argonTime argonMemory argonThreads argonKeyLen)] := by
  have hS : ('$' : Char) ∉ b64EncodeRaw salt := fun hc =>
    (b64EncodeRaw_not_special salt hsalt '$' hc).1 rfl
  have hH : ('$' : Char) ∉ b64EncodeRaw
      (kdf password salt argonTime argonMemory argonThreads argonKeyLen) := fun hc =>
    (b64EncodeRaw_not_special _ hkb '$' hc).1 rfl
  rw [hashFormat_split argonMemory argonTime argonThreads _ _ hS hH]
  have hparams : "m=".toList ++ natDecimal argonMemory ++
      ",t=".toList ++ natDecimal argonTime ++
      ",p=".toList ++ natDecimal argonThreads = "m=65536,t=1,p=4".toList := by decide
  rw [hparams]

/-- The JSON value in the `sub` claim position.  The issuers of this service
write either a JSON number (session tokens: `"sub": account.ID`) or a JSON
string (password-reset tokens), and `encoding/json` decodes every JSON
number into a float64. -/
inductive SubClaim where
  | num (n : Nat)
  | str (s : List Char)
  deriving DecidableEq, Repr

/-- The claims set written by both issuers: `sub`, `iss`, `iat`, `exp`. -/
structure JwtClaims where
  sub : SubClaim
  iss : List Char
  iat : Int
  exp : Int
  deriving DecidableEq, Repr

/-- A compact signed token: its claims plus the HMAC-SHA-256 signature over
their serialization. -/
structure JwtToken where
  claims : JwtClaims
  sig : List Nat
  deriving DecidableEq, Repr

/-- Signature of the HMAC-SHA-256 signing primitive behind
`jwt.SigningMethodHS256`: secret and serialized claims to MAC bytes.  An
opaque library primitive, hence a parameter of the embedding. -/
abbrev MacFn := List Char → JwtClaims → List Nat

inductive TokenError where
  | jwtSecretNotSet
  | invalidToken
  | subjectClaimNotFound
  | invalidSubjectClaim
  | parseError
  deriving DecidableEq, Repr

/-- Number of significant binary digits of `n`, scanned over 64 bit
positions (every Go `uint` fits). -/
def natBitLen (n : Nat) : Nat :=
  (List.range 64).foldl (fun acc i => if 2 ^ i ≤ n then i + 1 else acc) 0

/-- Round-to-nearest-even of an integer to 53 significant bits: the exact
value of `float64(n)` for `n < 2 ^ 64`.  `encoding/json` decodes every JSON
number into a float64, so a numeric claim read back from a token takes this
detour before the Go code converts it to `uint`. -/
def float64RoundNat (n : Nat) : Nat :=
  if n < 2 ^ 53 then n
  else
    let e := natBitLen n - 53
    let q := n / 2 ^ e
    let r := n % 2 ^ e
    let half := 2 ^ (e - 1)
    if r < half then q * 2 ^ e
    else if half < r then (q + 1) * 2 ^ e
    else if q % 2 = 0 then q * 2 ^ e else (q + 1) * 2 ^ e

theorem float64RoundNat_small {n : Nat} (h : n < 2 ^ 53) :
    float64RoundNat n = n := by
  simp only [float64RoundNat]
  rw [if_pos h]

/-- `GenerateAuthToken` from `internal/account/service.go`: require the
configured secret to be non-empty, then sign claims `sub = account.ID`,
`iss = "spsyncpro_api"`, `iat = now`, `exp = now + 24h` with HMAC-SHA-256.
The clock reading is passed explicitly. -/
def generateAuthToken (mac : MacFn) (secret : List Char) (accountID : Nat)
    (now : Int) : GoResult TokenError JwtToken :=
  if secret = [] then .err .jwtSecretNotSet
  else
    let claims : JwtClaims :=
      { sub := .num accountID, iss := "spsyncpro_api".toList,
        iat := now, exp := now + 24 * 3600 }
    .ok { claims := claims, sig := mac secret claims }

/-- `GeneratePasswordResetToken`: identical except
`sub = "<accountID>:password-reset"` as a JSON string. -/
def generatePasswordResetToken (mac : MacFn) (secret : List Char)
    (accountID : Nat) (now : Int) : GoResult TokenError JwtToken :=
  if secret = [] then .err .jwtSecretNotSet
  else
    let claims : JwtClaims :=
      { sub := .str (natDecimal accountID ++ ":password-reset".toList),
        iss := "spsyncpro_api".toList, iat := now, exp := now + 24 * 3600 }
    .ok { claims := claims, sig := mac secret claims }

/-- `jwt.Parse` with an HS256 key function: verify the signature against the
secret, then validate the registered claims — the expiry `exp` must lie
strictly after the validation time (no leeway is configured).  Both failure
modes surface to the caller as an invalid-token error. -/
def jwtParse (mac : MacFn) (secret : List Char) (tok : JwtToken) (now : Int) :
    GoResult TokenError JwtClaims :=
  if tok.sig ≠ mac secret tok.claims then .err .invalidToken
  else if ¬ now < tok.claims.exp then .err .invalidToken
  else .ok tok.claims

/-- `ValidateAuthToken`: check the configured secret, parse and validate,
then read the `sub` claim with a comma-ok type assertion to float64;
`uint(accountIDFloat)` returns the value after the float64 rounding that
`encoding/json` applied to the serialized number. -/
def validateAuthToken (mac : MacFn) (secret : List Char) (tok : JwtToken)
    (now : Int) : GoResult TokenError Nat :=
  if secret = [] then .err .jwtSecretNotSet
  else
    match jwtParse mac secret tok now with
    | .err e => .err e
    | .panicked m => .panicked m
    | .ok claims =>
      match claims.sub with
      | .num n => .ok (float64RoundNat n)
      | .str _ => .err .invalidSubjectClaim

/-- `ValidatePasswordResetToken`: after parsing, the source asserts
`subClaim.(string)` without the comma-ok pattern, so a numeric subject
claim — as carried by every session token — causes a runtime panic rather
than an error return.  A string subject is split on `:`; the leading part
must parse as a 64-bit unsigned integer and the trailing part must equal
`password-reset`. -/
def validatePasswordResetToken (mac : MacFn) (secret : List Char)
    (tok : JwtToken) (now : Int) : GoResult TokenError Nat :=
  if secret = [] then .err .jwtSecretNotSet
  else
    match jwtParse mac secret tok now with
    | .err e => .err e
    | .panicked m => .panicked m
    | .ok claims =>
      match claims.sub with
      | .num _ =>
          .panicked "interface conversion: interface is float64, not string".toList
      | .str s =>
        match splitOnChar ':' s with
        | [idPart, marker] =>
          match goParseUint idPart 64 with
          | none => .err .parseError
          | some accountID =>
            if marker = "password-reset".toList then .ok accountID
            else .err .invalidSubjectClaim
        | _ => .err .invalidSubjectClaim

/-- Abstract model of the AES-GCM authenticated-encryption primitive:
`sealAEAD key nonce plaintext` yields ciphertext plus tag, `openAuth key nonce
ciphertext` authenticates and decrypts.  Opaque library primitives, hence
parameters of the embedding. -/
structure GCMModel where
  sealAEAD : List Nat → List Nat → List Nat → List Nat
  openAuth : List Nat → List Nat → List Nat → Option (List Nat)

/-- `cipher.NewGCM(block).NonceSize()` for the standard mode: 12 bytes. -/
def gcmNonceSize : Nat := 12

inductive CryptoError where
  | invalidKeySize
  | decodeError
  | tooShort
  | authFailed
  deriving DecidableEq, Repr

/-- `aes.NewCipher` accepts exactly 16-, 24- or 32-byte keys. -/
def validAesKeyLen (key : List Nat) : Bool :=
  key.length == 16 || key.length == 24 || key.length == 32

/-- `Encryptor.Encrypt` from `pkg/utils`: build the cipher, draw a fresh
nonce (passed explicitly here), seal with the nonce itself as destination
prefix (`gcm.Seal(nonce, nonce, plaintext, nil)`), and return the standard
padded base64 of `nonce || ciphertext || tag`. -/
def encryptorEncrypt (g : GCMModel) (key nonce pt : List Nat) :
    List Char × Option CryptoError :=
  if ¬ validAesKeyLen key then ([], some .invalidKeySize)
  else (b64EncodeStd (nonce ++ g.sealAEAD key nonce pt), none)

/-- `Encryptor.Decrypt` from `pkg/utils`: base64-decode, build the cipher,
reject decoded inputs shorter than the nonce size, split nonce from
ciphertext, and open with authentication; every failure path returns the
empty string together with the error. -/
def encryptorDecrypt (g : GCMModel) (key : List Nat) (s : List Char) :
    List Nat × Option CryptoError :=
  match b64DecodeStd s with
  | none => ([], some .decodeError)
  | some bytes =>
    if ¬ validAesKeyLen key then ([], some .invalidKeySize)
    else if bytes.length < gcmNonceSize then ([], some .tooShort)
    else
      match g.openAuth key (bytes.take gcmNonceSize) (bytes.drop gcmNonceSize) with
      | none => ([], some .authFailed)
      | some pt => (pt, none)

/-- A trivial MAC used to instantiate the abstract signing primitive in
witnesses. -/
def macW : MacFn := fun _ _ => []

/-- C1: the spec requires `ValidatePasswordResetToken` applied to a session
token issued with the same secret to fail with `ErrInvalidSubjectClaim`.
The source instead reaches the unchecked type assertion
`subClaim.(string)` (service.go line 236) on the numeric subject claim that
every session token carries, and panics at runtime — it neither succeeds
nor returns any error value.  This theorem evaluates the embedded code on
the claim's inputs and exhibits the panic. -/
theorem validatePasswordResetToken_on_session_token_panics (mac : MacFn)
    (secret : List Char) (accountID : Nat) (t tv : Int)
    (hsecret : secret ≠ []) (hfresh : tv < t + 24 * 3600) :
    ∃ tok, generateAuthToken mac secret accountID t = .ok tok ∧
      validatePasswordResetToken mac secret tok tv =
        .panicked "interface conversion: interface is float64, not string".toList := by
  refine ⟨{ claims := { sub := .num accountID, iss := "spsyncpro_api".toList,
                        iat := t, exp := t + 24 * 3600 },
            sig := mac secret { sub := .num accountID, iss := "spsyncpro_api".toList,
                                iat := t, exp := t + 24 * 3600 } }, ?_, ?_⟩
  · simp [generateAuthToken, hsecret]
  · have hr : ¬ (t + 86400 ≤ tv) := by omega
    simp [validatePasswordResetToken, jwtParse, hsecret, hr]

theorem validatePasswordResetToken_on_session_token_panics_witness :
    (['s'] : List Char) ≠ [] ∧ (0 : Int) < 0 + 24 * 3600 ∧
    ∃ tok, generateAuthToken macW ['s'] 1 0 = .ok tok ∧
      validatePasswordResetToken macW ['s'] tok 0 =
        .panicked "interface conversion: interface is float64, not string".toList :=
  ⟨by decide, by decide,
    validatePasswordResetToken_on_session_token_panics macW ['s'] 1 0 0
      (by decide) (by decide)⟩

/-- C2 (amended): for every account id below `2 ^ 53` — exactly the ids that
survive the float64 decoding `encoding/json` applies to JSON numbers —
validating a fresh session token with the same secret before its 24-hour
expiry returns that id with no error. -/
theorem validateAuthToken_roundtrip (mac : MacFn) (secret : List Char)
    (accountID : Nat) (t tv : Int) (hsecret : secret ≠ [])
    (hid : accountID < 2 ^ 53) (hfresh : tv < t + 24 * 3600) :
    ∃ tok, generateAuthToken mac secret accountID t = .ok tok ∧
      validateAuthToken mac secret tok tv = .ok accountID := by
  refine ⟨{ claims := { sub := .num accountID, iss := "spsyncpro_api".toList,
                        iat := t, exp := t + 24 * 3600 },
            sig := mac secret { sub := .num accountID, iss := "spsyncpro_api".toList,
                                iat := t, exp := t + 24 * 3600 } }, ?_, ?_⟩
  · simp [generateAuthToken, hsecret]
  · have hr : ¬ (t + 86400 ≤ tv) := by omega
    simp [validateAuthToken, jwtParse, hsecret, hr, float64RoundNat_small hid]

theorem validateAuthToken_roundtrip_witness :
    (['s'] : List Char) ≠ [] ∧ (123 : Nat) < 2 ^ 53 ∧ (0 : Int) < 0 + 24 * 3600 ∧
    ∃ tok, generateAuthToken macW ['s'] 123 0 = .ok tok ∧
      validateAuthToken macW ['s'] tok 0 = .ok 123 :=
  ⟨by decide, by decide, by decide,
    validateAuthToken_roundtrip macW ['s'] 123 0 0 (by decide) (by decide) (by decide)⟩

/-- C2 counterexample: the claim quantifies over every Go `uint`, but for the
account id `2 ^ 53 + 1 = 9007199254740993` the subject claim comes back from
the JSON float64 decoding rounded to `9007199254740992`; validation
succeeds with no error yet returns a different id than the one issued. -/
theorem validateAuthToken_roundtrip_counterexample :
    generateAuthToken macW ['s'] 9007199254740993 0 =
      .ok { claims := { sub := .num 9007199254740993,
                        iss := "spsyncpro_api".toList, iat := 0, exp := 0 + 24 * 3600 },
            sig := [] } ∧
    validateAuthToken macW ['s']
        { claims := { sub := .num 9007199254740993,
                      iss := "spsyncpro_api".toList, iat := 0, exp := 0 + 24 * 3600 },
          sig := [] } 0 = .ok 9007199254740992 ∧
    (9007199254740992 : Nat) ≠ 9007199254740993 := by
  refine ⟨by decide, ?_, by decide⟩
  decide

/-- C5: whatever the token, a validation performed after the `exp` timestamp
fails with the invalid-token error in both validators, even when the
signature is the correct MAC of the claims under the secret. -/
theorem expired_token_fails_invalidToken (mac : MacFn) (secret : List Char)
    (tok : JwtToken) (now : Int) (hsecret : secret ≠ [])
    (hsig : tok.sig = mac secret tok.claims) (hexp : tok.claims.exp < now) :
    validateAuthToken mac secret tok now = .err .invalidToken ∧
      validatePasswordResetToken mac secret tok now = .err .invalidToken := by
  have hnl : ¬ now < tok.claims.exp := by omega
  refine ⟨?_, ?_⟩ <;>
    simp [validateAuthToken, validatePasswordResetToken, jwtParse, hsecret, hsig, hnl]

theorem expired_token_fails_invalidToken_witness :
    (['s'] : List Char) ≠ [] ∧
    validateAuthToken macW ['s']
        { claims := { sub := .num 7, iss := "spsyncpro_api".toList,
                      iat := -90000, exp := -1 }, sig := [] } 0 =
      .err .invalidToken ∧
    validatePasswordResetToken macW ['s']
        { claims := { sub := .num 7, iss := "spsyncpro_api".toList,
                      iat := -90000, exp := -1 }, sig := [] } 0 =
      .err .invalidToken :=
  ⟨by decide,
    (expired_token_fails_invalidToken macW ['s']
      { claims := { sub := .num 7, iss := "spsyncpro_api".toList,
                    iat := -90000, exp := -1 }, sig := [] } 0
      (by decide) (by decide) (by decide)).1,
    (expired_token_fails_invalidToken macW ['s']
      { claims := { sub := .num 7, iss := "spsyncpro_api".toList,
                    iat := -90000, exp := -1 }, sig := [] } 0
      (by decide) (by decide) (by decide)).2⟩

theorem goTrim_self_append (pre s : List Char) : goTrim pre (pre ++ s) = s := by
  simp [goTrim, List.isPrefixOf_iff_prefix, List.prefix_append, List.drop_left]

theorem argonMemory_eq : argonMemory = 65536 := rfl

theorem argonTime_eq : argonTime = 1 := rfl

theorem argonThreads_eq : argonThreads = 4 := rfl

theorem argonKeyLen_eq : argonKeyLen = 32 := rfl

theorem argonSaltLen_eq : argonSaltLen = 16 := rfl

/-- The `,`-split of the parameter field of the `Sprintf` layout. -/
theorem paramsField_split (m t p : Nat) :
    splitOnChar ',' ("m=".toList ++ natDecimal m ++ ",t=".toList ++
        natDecimal t ++ ",p=".toList ++ natDecimal p) =
      ["m=".toList ++ natDecimal m, "t=".toList ++ natDecimal t,
        "p=".toList ++ natDecimal p] := by
  have hm : (',' : Char) ∉ "m=".toList ++ natDecimal m := by
    intro hc
    rcases List.mem_append.mp hc with hc | hc
    · revert hc; decide
    · exact (natDecimal_not_special m ',' hc).2 rfl
  have ht : (',' : Char) ∉ "t=".toList ++ natDecimal t := by
    intro hc
    rcases List.mem_append.mp hc with hc | hc
    · revert hc; decide
    · exact (natDecimal_not_special t ',' hc).2 rfl
  have hp : (',' : Char) ∉ "p=".toList ++ natDecimal p := by
    intro hc
    rcases List.mem_append.mp hc with hc | hc
    · revert hc; decide
    · exact (natDecimal_not_special p ',' hc).2 rfl
  have restruct : "m=".toList ++ natDecimal m ++ ",t=".toList ++
      natDecimal t ++ ",p=".toList ++ natDecimal p =
      ("m=".toList ++ natDecimal m) ++ ',' :: (("t=".toList ++ natDecimal t) ++
        ',' :: ("p=".toList ++ natDecimal p)) := by
    simp
  rw [restruct, splitOnChar_append ',' _ _ hm, splitOnChar_append ',' _ _ ht,
    splitOnChar_no_sep ',' _ hp]

/-- Evaluation of the `ComparePassword` body on the six fields of a
well-formed `Sprintf` layout with parameter values `m`, `t`, `p`: the key
is derived with the embedded parameters, `p` narrowed to `uint8`. -/
theorem comparePasswordParts_eval (kdf : Kdf) (probe : List Char)
    (m t p : Nat) (hm : m < 2 ^ 32) (ht : t < 2 ^ 32) (hp : p < 2 ^ 32)
    (s64 h64 : List Char) :
    comparePasswordParts kdf probe
      [[], "argon2id".toList, "v=19".toList,
        "m=".toList ++ natDecimal m ++ ",t=".toList ++ natDecimal t ++
          ",p=".toList ++ natDecimal p, s64, h64] =
      (match b64DecodeRaw s64, b64DecodeRaw h64 with
       | some salt, some hb =>
          (decide (hb = kdf probe salt t m (p % 256) argonKeyLen), none)
       | _, _ => (false, some HashError.invalidHashFormat)) := by
  have e1 : goParseUint (goTrim "m=".toList ("m=".toList ++ natDecimal m)) 32 =
      some m := by rw [goTrim_self_append, goParseUint_natDecimal m 32 hm]
  have e2 : goParseUint (goTrim "t=".toList ("t=".toList ++ natDecimal t)) 32 =
      some t := by rw [goTrim_self_append, goParseUint_natDecimal t 32 ht]
  have e3 : goParseUint (goTrim "p=".toList ("p=".toList ++ natDecimal p)) 32 =
      some p := by rw [goTrim_self_append, goParseUint_natDecimal p 32 hp]
  simp only [comparePasswordParts, paramsField_split, e1, e2, e3]
  rw [if_neg (by simp)]
  cases b64DecodeRaw s64 with
  | none => rfl
  | some salt =>
    cases b64DecodeRaw h64 with
    | none => rfl
    | some hb => rfl

/-- C7: `ComparePassword` fails with `ErrInvalidHashFormat` — returning
`false` together with the error, without ever deriving a key (the outcome
is the same for every password and key-derivation function) — exactly when
the stored hash is malformed in one of the ways the claim enumerates:
wrong number of `$`-fields, wrong algorithm tag, wrong number of
`,`-parameters, an unparsable `m`/`t`/`p` value, or invalid base64 in the
salt or hash field. -/
theorem comparePassword_invalidFormat_iff (kdf : Kdf) (password hash : List Char) :
    comparePassword kdf password hash = (false, some HashError.invalidHashFormat) ↔
      specHashMalformed hash = true :=
  comparePasswordParts_invalid_iff kdf password (splitOnChar '$' hash)

/-- The key-derivation function used to instantiate the abstract Argon2id
primitive in witnesses: a keyLen-byte constant block derived from the
password length. -/
def kdfW : Kdf := fun p _ _ _ _ l => List.replicate l (p.length % 256)

/-- C3: verifying a password against its own fresh hash succeeds with no
error; and granted that the key-derivation function does not collide on the
two probe points — the cryptographic contract of Argon2id the code relies
on — verifying a different password against that hash returns `false` with
no error. -/
theorem comparePassword_hashPassword_roundtrip (kdf : Kdf)
    (password other : List Char) (salt : List Nat) (hpw : password ≠ [])
    (hsalt : ∀ b ∈ salt, b < 256)
    (hkb : ∀ b ∈ kdf password salt argonTime argonMemory argonThreads argonKeyLen,
      b < 256)
    (hcol : kdf other salt argonTime argonMemory argonThreads argonKeyLen ≠
            kdf password salt argonTime argonMemory argonThreads argonKeyLen) :
    ∃ h, hashPassword kdf password salt = .ok h ∧
      comparePassword kdf password h = (true, none) ∧
      comparePassword kdf other h = (false, none) := by
  have hsplit : splitOnChar '$'
      (hashFormat argonMemory argonTime argonThreads (b64EncodeRaw salt)
        (b64EncodeRaw (kdf password salt argonTime argonMemory argonThreads argonKeyLen))) =
      [[], "argon2id".toList, "v=19".toList,
        "m=".toList ++ natDecimal argonMemory ++ ",t=".toList ++
          natDecimal argonTime ++ ",p=".toList ++ natDecimal argonThreads,
        b64EncodeRaw salt,
        b64EncodeRaw (kdf password salt argonTime argonMemory argonThreads argonKeyLen)] := by
    refine hashFormat_split argonMemory argonTime argonThreads _ _ ?_ ?_
    · exact fun hc => (b64EncodeRaw_not_special salt hsalt '$' hc).1 rfl
    · exact fun hc => (b64EncodeRaw_not_special _ hkb '$' hc).1 rfl
  refine ⟨hashFormat argonMemory argonTime argonThreads (b64EncodeRaw salt)
      (b64EncodeRaw (kdf password salt argonTime argonMemory argonThreads argonKeyLen)),
    ?_, ?_, ?_⟩
  · simp [hashPassword, hpw]
  · rw [comparePassword, hsplit,
      comparePasswordParts_eval kdf password argonMemory argonTime argonThreads
        (by rw [argonMemory_eq]; norm_num) (by rw [argonTime_eq]; norm_num)
        (by rw [argonThreads_eq]; norm_num) _ _,
      b64DecodeRaw_b64EncodeRaw salt hsalt, b64DecodeRaw_b64EncodeRaw _ hkb]
    simp [argonThreads_eq]
  · rw [comparePassword, hsplit,
      comparePasswordParts_eval kdf other argonMemory argonTime argonThreads
        (by rw [argonMemory_eq]; norm_num) (by rw [argonTime_eq]; norm_num)
        (by rw [argonThreads_eq]; norm_num) _ _,
      b64DecodeRaw_b64EncodeRaw salt hsalt, b64DecodeRaw_b64EncodeRaw _ hkb]
    have hcol' : ¬ (kdf password salt argonTime argonMemory argonThreads argonKeyLen =
        kdf other salt argonTime argonMemory (argonThreads % 256) argonKeyLen) := by
      rw [show argonThreads % 256 = argonThreads from rfl]
      exact fun he => hcol he.symm
    simp [hcol']

theorem comparePassword_hashPassword_roundtrip_witness :
    (['a'] : List Char) ≠ [] ∧
    kdfW ['a', 'b'] (List.replicate 16 0) argonTime argonMemory argonThreads argonKeyLen ≠
      kdfW ['a'] (List.replicate 16 0) argonTime argonMemory argonThreads argonKeyLen ∧
    ∃ h, hashPassword kdfW ['a'] (List.replicate 16 0) = .ok h ∧
      comparePassword kdfW ['a'] h = (true, none) ∧
      comparePassword kdfW ['a', 'b'] h = (false, none) :=
  ⟨by decide, by decide,
    comparePassword_hashPassword_roundtrip kdfW ['a'] ['a', 'b']
      (List.replicate 16 0) (by decide) (by decide) (by decide) (by decide)⟩

/-- C6: for every non-empty password the encoded hash is exactly
`$argon2id$v=19$m=65536,t=1,p=4$<salt>$<hash>`: six `$`-delimited fields,
the parameter field rendered in decimal from the fixed cost constants,
`<salt>` the unpadded standard base64 of the 16-byte salt, and `<hash>` the
unpadded standard base64 of the 32-byte Argon2id-derived key. -/
theorem hashPassword_format (kdf : Kdf) (password : List Char) (salt : List Nat)
    (hpw : password ≠ []) (hlen : salt.length = argonSaltLen)
    (hsalt : ∀ b ∈ salt, b < 256)
    (hklen : (kdf password salt argonTime argonMemory argonThreads argonKeyLen).length =
      argonKeyLen)
    (hkb : ∀ b ∈ kdf password salt argonTime argonMemory argonThreads argonKeyLen,
      b < 256) :
    ∃ h, hashPassword kdf password salt = .ok h ∧
      h = "$argon2id$v=19$m=65536,t=1,p=4$".toList ++ b64EncodeRaw salt ++
        '$' :: b64EncodeRaw (kdf password salt argonTime argonMemory argonThreads argonKeyLen) ∧
      splitOnChar '$' h =
        [[], "argon2id".toList, "v=19".toList, "m=65536,t=1,p=4".toList,
          b64EncodeRaw salt,
          b64EncodeRaw (kdf password salt argonTime argonMemory argonThreads argonKeyLen)] ∧
      salt.length = 16 ∧
      (kdf password salt argonTime argonMemory argonThreads argonKeyLen).length = 32 := by
  refine ⟨hashFormat argonMemory argonTime argonThreads (b64EncodeRaw salt)
      (b64EncodeRaw (kdf password salt argonTime argonMemory argonThreads argonKeyLen)),
    ?_, ?_, ?_, ?_, ?_⟩
  · simp [hashPassword, hpw]
  · simp [hashFormat, show natDecimal argonMemory = "65536".toList from by decide,
      show natDecimal argonTime = "1".toList from by decide,
      show natDecimal argonThreads = "4".toList from by decide]
  · exact hashPassword_split kdf password salt hsalt hkb
  · rw [hlen, argonSaltLen_eq]
  · rw [hklen, argonKeyLen_eq]

theorem hashPassword_format_witness :
    (['a'] : List Char) ≠ [] ∧
    (List.replicate 16 0).length = argonSaltLen ∧
    (kdfW ['a'] (List.replicate 16 0) argonTime argonMemory argonThreads argonKeyLen).length =
      argonKeyLen ∧
    ∃ h, hashPassword kdfW ['a'] (List.replicate 16 0) = .ok h ∧
      h = "$argon2id$v=19$m=65536,t=1,p=4$".toList ++
        b64EncodeRaw (List.replicate 16 0) ++
        '$' :: b64EncodeRaw
          (kdfW ['a'] (List.replicate 16 0) argonTime argonMemory argonThreads argonKeyLen) ∧
      splitOnChar '$' h =
        [[], "argon2id".toList, "v=19".toList, "m=65536,t=1,p=4".toList,
          b64EncodeRaw (List.replicate 16 0),
          b64EncodeRaw
            (kdfW ['a'] (List.replicate 16 0) argonTime argonMemory argonThreads argonKeyLen)] ∧
      (List.replicate 16 (0 : Nat)).length = 16 ∧
      (kdfW ['a'] (List.replicate 16 0) argonTime argonMemory argonThreads argonKeyLen).length =
        32 :=
  ⟨by decide, by decide, by decide,
    hashPassword_format kdfW ['a'] (List.replicate 16 0)
      (by decide) (by decide) (by decide) (by decide) (by decide)⟩

/-- `ComparePassword` on the `Sprintf` layout with arbitrary in-range
parameter values: only `p % 256` reaches the key derivation. -/
theorem comparePassword_hashFormat (kdf : Kdf) (password s64 h64 : List Char)
    (m t p : Nat) (hm : m < 2 ^ 32) (ht : t < 2 ^ 32) (hp : p < 2 ^ 32)
    (hs : ('$' : Char) ∉ s64) (hh : ('$' : Char) ∉ h64) :
    comparePassword kdf password (hashFormat m t p s64 h64) =
      (match b64DecodeRaw s64, b64DecodeRaw h64 with
       | some salt, some hb =>
          (decide (hb = kdf password salt t m (p % 256) argonKeyLen), none)
       | _, _ => (false, some HashError.invalidHashFormat)) := by
  rw [comparePassword, hashFormat_split m t p s64 h64 hs hh,
    comparePasswordParts_eval kdf password m t p hm ht hp s64 h64]

/-- C9: `ComparePassword` parses the declared parallelism as a 32-bit
unsigned integer and narrows it to `uint8` — reduction mod 256 — before key
derivation: adding 256 to the declared `p` leaves the result unchanged on
every stored hash in the `Sprintf` layout, and a hash declaring `p=260`
behaves exactly like one declaring `p=4`, i.e. verifies against a key
derived with 4 threads. -/
theorem comparePassword_parallelism_mod256 (kdf : Kdf)
    (password s64 h64 : List Char) (m t p : Nat)
    (hm : m < 2 ^ 32) (ht : t < 2 ^ 32) (hp : p + 256 < 2 ^ 32)
    (hs : ('$' : Char) ∉ s64) (hh : ('$' : Char) ∉ h64) :
    comparePassword kdf password (hashFormat m t (p + 256) s64 h64) =
      comparePassword kdf password (hashFormat m t p s64 h64) ∧
    comparePassword kdf password (hashFormat m t 260 s64 h64) =
      comparePassword kdf password (hashFormat m t 4 s64 h64) := by
  constructor
  · rw [comparePassword_hashFormat kdf password s64 h64 m t (p + 256) hm ht hp hs hh,
      comparePassword_hashFormat kdf password s64 h64 m t p hm ht (by omega) hs hh,
      show (p + 256) % 256 = p % 256 from by omega]
  · rw [comparePassword_hashFormat kdf password s64 h64 m t 260 hm ht (by norm_num) hs hh,
      comparePassword_hashFormat kdf password s64 h64 m t 4 hm ht (by norm_num) hs hh]

theorem comparePassword_parallelism_mod256_witness :
    (65536 : Nat) < 2 ^ 32 ∧ (1 : Nat) < 2 ^ 32 ∧ (1 : Nat) + 256 < 2 ^ 32 ∧
    (('$' : Char) ∉ (['A', 'A'] : List Char)) ∧
    (comparePassword kdfW ['a'] (hashFormat 65536 1 (1 + 256) ['A', 'A'] ['A', 'A']) =
      comparePassword kdfW ['a'] (hashFormat 65536 1 1 ['A', 'A'] ['A', 'A']) ∧
    comparePassword kdfW ['a'] (hashFormat 65536 1 260 ['A', 'A'] ['A', 'A']) =
      comparePassword kdfW ['a'] (hashFormat 65536 1 4 ['A', 'A'] ['A', 'A'])) :=
  ⟨by decide, by decide, by decide, by decide,
    comparePassword_parallelism_mod256 kdfW ['a'] ['A', 'A'] ['A', 'A'] 65536 1 1
      (by decide) (by decide) (by decide) (by decide) (by decide)⟩

/-- C10: `ComparePassword` never examines the version field: two stored
hashes that are identical except in the second `$`-delimited field produce
identical results for every password and key-derivation function. -/
theorem comparePassword_version_ignored (kdf : Kdf)
    (password v₁ v₂ rest : List Char)
    (h1 : ('$' : Char) ∉ v₁) (h2 : ('$' : Char) ∉ v₂) :
    comparePassword kdf password
        ('$' :: "argon2id".toList ++ '$' :: v₁ ++ '$' :: rest) =
      comparePassword kdf password
        ('$' :: "argon2id".toList ++ '$' :: v₂ ++ '$' :: rest) := by
  have key : ∀ v : List Char, ('$' : Char) ∉ v →
      splitOnChar '$' ('$' :: "argon2id".toList ++ '$' :: v ++ '$' :: rest) =
        [] :: "argon2id".toList :: v :: splitOnChar '$' rest := by
    intro v hv
    have restruct : '$' :: "argon2id".toList ++ '$' :: v ++ '$' :: rest =
        [] ++ '$' :: ("argon2id".toList ++ '$' :: (v ++ '$' :: rest)) := by simp
    rw [restruct, splitOnChar_append '$' [] _ (by simp),
      splitOnChar_append '$' "argon2id".toList _ (by decide),
      splitOnChar_append '$' v _ hv]
  rw [comparePassword, comparePassword, key v₁ h1, key v₂ h2]
  exact comparePasswordParts_ver_irrelevant kdf password [] "argon2id".toList v₁ v₂ _

theorem comparePassword_version_ignored_witness :
    (('$' : Char) ∉ ("v=19".toList : List Char)) ∧
    (('$' : Char) ∉ ("v=18".toList : List Char)) ∧
    comparePassword kdfW ['a']
        ('$' :: "argon2id".toList ++ '$' :: "v=19".toList ++
          '$' :: "m=65536,t=1,p=4$AA$AA".toList) =
      comparePassword kdfW ['a']
        ('$' :: "argon2id".toList ++ '$' :: "v=18".toList ++
          '$' :: "m=65536,t=1,p=4$AA$AA".toList) :=
  ⟨by decide, by decide,
    comparePassword_version_ignored kdfW ['a'] "v=19".toList "v=18".toList
      "m=65536,t=1,p=4$AA$AA".toList (by decide) (by decide)⟩

/-- C4: under any valid key, decrypting the output of `Encrypt` recovers the
plaintext with no error — for every plaintext including the empty one and
whatever fresh nonce was drawn, granted the AES-GCM open-seal round-trip
contract at that point — and two encryptions under distinct nonces produce
different sealed strings. -/
theorem encryptorDecrypt_encryptorEncrypt (g : GCMModel)
    (key nonce nonce' pt : List Nat)
    (hkey : validAesKeyLen key = true)
    (hnl : nonce.length = gcmNonceSize) (hnb : ∀ b ∈ nonce, b < 256)
    (hsb : ∀ b ∈ g.sealAEAD key nonce pt, b < 256)
    (hround : g.openAuth key nonce (g.sealAEAD key nonce pt) = some pt)
    (hnl' : nonce'.length = gcmNonceSize) (hnb' : ∀ b ∈ nonce', b < 256)
    (hsb' : ∀ b ∈ g.sealAEAD key nonce' pt, b < 256)
    (hne : nonce ≠ nonce') :
    (encryptorEncrypt g key nonce pt).2 = none ∧
    encryptorDecrypt g key (encryptorEncrypt g key nonce pt).1 = (pt, none) ∧
    (encryptorEncrypt g key nonce pt).1 ≠ (encryptorEncrypt g key nonce' pt).1 := by
  have henc : encryptorEncrypt g key nonce pt =
      (b64EncodeStd (nonce ++ g.sealAEAD key nonce pt), none) := by
    simp [encryptorEncrypt, hkey]
  have henc' : encryptorEncrypt g key nonce' pt =
      (b64EncodeStd (nonce' ++ g.sealAEAD key nonce' pt), none) := by
    simp [encryptorEncrypt, hkey]
  have hbytes : ∀ b ∈ nonce ++ g.sealAEAD key nonce pt, b < 256 := by
    intro b hb
    rcases List.mem_append.mp hb with hb | hb
    · exact hnb b hb
    · exact hsb b hb
  have hbytes' : ∀ b ∈ nonce' ++ g.sealAEAD key nonce' pt, b < 256 := by
    intro b hb
    rcases List.mem_append.mp hb with hb | hb
    · exact hnb' b hb
    · exact hsb' b hb
  refine ⟨by rw [henc], ?_, ?_⟩
  · rw [henc]
    have hlen : ¬ (nonce ++ g.sealAEAD key nonce pt).length < gcmNonceSize := by
      rw [List.length_append, hnl]; omega
    have htake : (nonce ++ g.sealAEAD key nonce pt).take gcmNonceSize = nonce := by
      rw [← hnl]; exact List.take_left nonce _
    have hdrop : (nonce ++ g.sealAEAD key nonce pt).drop gcmNonceSize =
        g.sealAEAD key nonce pt := by
      rw [← hnl]; exact List.drop_left nonce _
    simp [encryptorDecrypt, b64DecodeStd_b64EncodeStd _ hbytes, hkey,
      hlen, htake, hdrop, hround]
    omega
  · rw [henc, henc']
    intro hE
    have hcat := b64EncodeStd_injOn hbytes hbytes' hE
    have := List.append_inj hcat (by rw [hnl, hnl'])
    exact hne this.1

/-- A concrete instantiation of the abstract AES-GCM primitive used in
witnesses: the tag is 16 zero bytes, and only the genuine key, nonce and
sealed bytes of the witness triple authenticate. -/
def gcmW : GCMModel where
  sealAEAD := fun _ _ pt => pt ++ List.replicate 16 0
  openAuth := fun k n ct =>
    if k = List.replicate 32 1 ∧ n = List.replicate 12 0 ∧
        ct = [72, 105] ++ List.replicate 16 0
    then some [72, 105] else none

theorem encryptorDecrypt_encryptorEncrypt_witness :
    validAesKeyLen (List.replicate 32 1) = true ∧
    gcmW.openAuth (List.replicate 32 1) (List.replicate 12 0)
        (gcmW.sealAEAD (List.replicate 32 1) (List.replicate 12 0) [72, 105]) =
      some [72, 105] ∧
    ((encryptorEncrypt gcmW (List.replicate 32 1) (List.replicate 12 0) [72, 105]).2 =
        none ∧
      encryptorDecrypt gcmW (List.replicate 32 1)
          (encryptorEncrypt gcmW (List.replicate 32 1)
            (List.replicate 12 0) [72, 105]).1 =
        ([72, 105], none) ∧
      (encryptorEncrypt gcmW (List.replicate 32 1) (List.replicate 12 0) [72, 105]).1 ≠
        (encryptorEncrypt gcmW (List.replicate 32 1)
          (List.replicate 11 0 ++ [1]) [72, 105]).1) :=
  ⟨by decide, by decide,
    encryptorDecrypt_encryptorEncrypt gcmW (List.replicate 32 1)
      (List.replicate 12 0) (List.replicate 11 0 ++ [1]) [72, 105]
      (by decide) (by decide) (by decide) (by decide) (by decide) (by decide)
      (by decide) (by decide) (by decide)⟩

/-- C8: every failure path of `Decrypt` returns the empty string together
with its typed error: input that is not valid standard base64 yields the
decode error; a decoded length below the 12-byte nonce size yields the
too-short error; a failing authentication check yields the authentication
error — in particular for a sealed value with any single byte changed, once
the scheme authenticates only the genuine nonce and ciphertext pair under
this key. -/
theorem encryptorDecrypt_error_paths (g : GCMModel) (key : List Nat)
    (hkey : validAesKeyLen key = true) :
    (∀ s, b64DecodeStd s = none →
      encryptorDecrypt g key s = ([], some CryptoError.decodeError)) ∧
    (∀ s bytes, b64DecodeStd s = some bytes → bytes.length < gcmNonceSize →
      encryptorDecrypt g key s = ([], some CryptoError.tooShort)) ∧
    (∀ s bytes, b64DecodeStd s = some bytes → ¬ bytes.length < gcmNonceSize →
      g.openAuth key (bytes.take gcmNonceSize) (bytes.drop gcmNonceSize) = none →
      encryptorDecrypt g key s = ([], some CryptoError.authFailed)) ∧
    (∀ nonce pt i b, nonce.length = gcmNonceSize →
      (∀ x ∈ nonce, x < 256) → (∀ x ∈ g.sealAEAD key nonce pt, x < 256) →
      b < 256 → i < (nonce ++ g.sealAEAD key nonce pt).length →
      (nonce ++ g.sealAEAD key nonce pt).set i b ≠ nonce ++ g.sealAEAD key nonce pt →
      (∀ n ct, (n, ct) ≠ (nonce, g.sealAEAD key nonce pt) →
        g.openAuth key n ct = none) →
      encryptorDecrypt g key
          (b64EncodeStd ((nonce ++ g.sealAEAD key nonce pt).set i b)) =
        ([], some CryptoError.authFailed)) := by
  refine ⟨?_, ?_, ?_, ?_⟩
  · intro s h
    simp [encryptorDecrypt, h]
  · intro s bytes h hlt
    simp [encryptorDecrypt, h, hkey, hlt]
  · intro s bytes h hge hopen
    simp [encryptorDecrypt, h, hkey, hge, hopen]
  · intro nonce pt i b hnl hnb hsb hblt hi hset hauth
    have hTb : ∀ x ∈ (nonce ++ g.sealAEAD key nonce pt).set i b, x < 256 := by
      intro x hx
      rcases List.mem_or_eq_of_mem_set hx with hx | rfl
      · rcases List.mem_append.mp hx with hx | hx
        · exact hnb x hx
        · exact hsb x hx
      · exact hblt
    have hTlen : ¬ ((nonce ++ g.sealAEAD key nonce pt).set i b).length <
        gcmNonceSize := by
      rw [List.length_set, List.length_append, hnl]; omega
    have hopen : g.openAuth key
        (((nonce ++ g.sealAEAD key nonce pt).set i b).take gcmNonceSize)
        (((nonce ++ g.sealAEAD key nonce pt).set i b).drop gcmNonceSize) = none := by
      apply hauth
      intro hpair
      apply hset
      have h1 := congrArg Prod.fst hpair
      have h2 := congrArg Prod.snd hpair
      simp only [] at h1 h2
      calc (nonce ++ g.sealAEAD key nonce pt).set i b
          = ((nonce ++ g.sealAEAD key nonce pt).set i b).take gcmNonceSize ++
            ((nonce ++ g.sealAEAD key nonce pt).set i b).drop gcmNonceSize := by
            rw [List.take_append_drop]
        _ = nonce ++ g.sealAEAD key nonce pt := by rw [h1, h2]
    simp [encryptorDecrypt, b64DecodeStd_b64EncodeStd _ hTb, hkey, hTlen, hopen]
    omega

theorem encryptorDecrypt_error_paths_witness :
    validAesKeyLen (List.replicate 32 1) = true ∧
    encryptorDecrypt gcmW (List.replicate 32 1) ['!'] =
      ([], some CryptoError.decodeError) ∧
    encryptorDecrypt gcmW (List.replicate 32 1) ['A', 'A', '=', '='] =
      ([], some CryptoError.tooShort) ∧
    encryptorDecrypt gcmW (List.replicate 32 1)
        (b64EncodeStd ((List.replicate 12 0 ++
          gcmW.sealAEAD (List.replicate 32 1) (List.replicate 12 0) [72, 105]).set 0 5)) =
      ([], some CryptoError.authFailed) := by
  have h := encryptorDecrypt_error_paths gcmW (List.replicate 32 1) (by decide)
  refine ⟨by decide, ?_, ?_, ?_⟩
  · exact h.1 ['!'] (by decide)
  · exact h.2.1 ['A', 'A', '=', '='] [0] (by decide) (by decide)
  · refine h.2.2.2 (List.replicate 12 0) [72, 105] 0 5 (by decide) (by decide)
      (by decide) (by decide) (by decide) (by decide) ?_
    intro n ct hne
    simp only [gcmW]
    rw [if_neg]
    rintro ⟨-, h2, h3⟩
    exact hne (by rw [h2, h3]; rfl)
